import Mathlib

/-!
Verification of the arithmetic rewrite-rule engine
(patronus-egraphs/src/rewrites.rs) against its specification.

The pattern language, the rule catalog, the width-consistency checker,
condition evaluation and the match-introspection query are embedded as
executable Lean definitions translated from the Rust source. The external
equality-saturation graph (egg) is treated, as the spec prescribes, as a
black-box service offering pattern search and per-class constant
resolution. Rust code that can panic (unwrap/expect, assert) is embedded
as Option-returning (none = panic) or Bool-returning (false = assertion
failure) functions, as noted at each definition.
-/

/-- Modelled from the spec: eval_width_max_plus_1 lives in
patronus-egraphs/src/arithmetic.rs, which is not among the given source
files; the spec defines maxPlus1(widthA, widthB) = max(widthA, widthB) + 1. -/
def eval_width_max_plus_1 (wa wb : Nat) : Nat := max wa wb + 1

/-- Modelled from the spec: eval_width_left_shift lives in
patronus-egraphs/src/arithmetic.rs, which is not among the given source
files; the spec defines widthOfLeftShift(valueWidth, amountWidth) =
valueWidth + (2 ^ amountWidth - 1). -/
def eval_width_left_shift (wa wb : Nat) : Nat := wa + (2 ^ wb - 1)

/-- rewrites.rs lines 83-86: no overflow possible for this addition. -/
def add_no_ov (wo wa wb : Nat) : Bool :=
  decide (wo ≥ eval_width_max_plus_1 wa wb)

/-- rewrites.rs lines 88-91: no overflow possible for this multiplication. -/
def mul_no_ov (wo wa wb : Nat) : Bool := decide (wo ≥ wa + wb)

/-- rewrites.rs lines 93-96: no overflow possible for this left shift. -/
def lsh_no_ov (wo wa wb : Nat) : Bool :=
  decide (wo ≥ eval_width_left_shift wa wb)

/-- The pattern variables appearing in the six catalog rules (written ?wo,
?wa, ... in the source's pattern strings). -/
inductive PVar where
  | wo | wa | sa | a | wb | sb | b | wc | c | wab | wbc
deriving DecidableEq

/-- Operator tags of the Arith pattern language: the three binary arithmetic
operators carry the 7-slot shape (out-width, width/sign/operand twice); the
two width helpers max+1 and wlsh are ordinary 2-ary nodes; numerals and the
sign literal unsign are leaves. -/
inductive NodeOp where
  | add | mul | shl | maxPlus1 | wlsh | num (n : Nat) | unsign
deriving DecidableEq

/-- Modelled from the spec: is_bin_op lives outside the given source files;
per the spec, the binary arithmetic operators are +, * and <<. -/
def is_bin_op : NodeOp → Bool
  | .add | .mul | .shl => true
  | _ => false

/-- A node of an egg RecExpr over the Arith language: either a pattern
variable or an operator node whose children are indices of earlier nodes. -/
inductive ENodeOrVar where
  | evar (v : PVar)
  | enode (op : NodeOp) (children : List Nat)
deriving DecidableEq

/-- A pattern as parsed from the source's s-expression strings: the tree
form of the spec's Pattern data model is kept with the source's slot order
(out-width, width-a, sign-a, a, width-b, sign-b, b for binary operators). -/
inductive PTree where
  | pvar (v : PVar)
  | num (n : Nat)
  | unsign
  | bin (tag : NodeOp) (w wa sa a wb sb b : PTree)
  | wop (tag : NodeOp) (x y : PTree)
deriving DecidableEq

/-- Modelled from the spec and egg: inserting a node into a RecExpr under
egg's compaction (Pattern::from calls RecExpr::compact, which hash-conses
the node list, keeping the index of the first structurally equal node). -/
def addNode (l : List ENodeOrVar) (e : ENodeOrVar) : List ENodeOrVar × Nat :=
  if e ∈ l then (l, l.findIdx (fun x => x == e)) else (l ++ [e], l.length)

/-- Modelled from the spec and egg: flattening a pattern tree into the
compacted RecExpr node list that egg's pattern parsing produces (children
first, in slot order, with structural sharing). Returns the node list and
the root's index. -/
def flattenAux : PTree → List ENodeOrVar → List ENodeOrVar × Nat
  | .pvar v, l => addNode l (.evar v)
  | .num n, l => addNode l (.enode (.num n) [])
  | .unsign, l => addNode l (.enode .unsign [])
  | .bin tag w wa sa a wb sb b, l =>
    let (l1, i1) := flattenAux w l
    let (l2, i2) := flattenAux wa l1
    let (l3, i3) := flattenAux sa l2
    let (l4, i4) := flattenAux a l3
    let (l5, i5) := flattenAux wb l4
    let (l6, i6) := flattenAux sb l5
    let (l7, i7) := flattenAux b l6
    addNode l7 (.enode tag [i1, i2, i3, i4, i5, i6, i7])
  | .wop tag x y, l =>
    let (l1, i1) := flattenAux x l
    let (l2, i2) := flattenAux y l1
    addNode l2 (.enode tag [i1, i2])

/-- The node list of a pattern (the .ast field of an egg Pattern). -/
def patternNodes (p : PTree) : List ENodeOrVar := (flattenAux p []).1

/-- An out-of-bounds child index would panic in Rust; all indices of a
RecExpr produced by flattenAux are in bounds, so the default node used by
getD below is never reached on real patterns (it is a leaf, so it imposes
no width constraint either way). -/
def pad_node : ENodeOrVar := .enode (.num 0) []

/-- rewrites.rs lines 267-279: the index of the output width slot, if the
node is a binary arithmetic operator. -/
def get_output_width_id : ENodeOrVar → Option Nat
  | .enode op ch => if is_bin_op op then some (ch.getD 0 0) else none
  | .evar _ => none

/-- One operand-width comparison of check_width_consistency (rewrites.rs
lines 246-252 and 255-261): true unless the operand is itself a binary
arithmetic node whose declared output width slot differs from the parent's
declared operand width slot (the Rust assert_eq fires exactly then). -/
def slot_ok (exprs : List ENodeOrVar) (width_id operand_id : Nat) : Bool :=
  match get_output_width_id (exprs.getD operand_id pad_node) with
  | some w => width_id == w
  | none => true

/-- The per-node body of check_width_consistency's loop (rewrites.rs lines
240-263): a binary arithmetic node checks both operand slots, every other
node is left alone. -/
def node_ok (exprs : List ENodeOrVar) (e : ENodeOrVar) : Bool :=
  match e with
  | .enode op ch =>
    if is_bin_op op then
      slot_ok exprs (ch.getD 1 0) (ch.getD 3 0) &&
        slot_ok exprs (ch.getD 4 0) (ch.getD 6 0)
    else true
  | .evar _ => true

/-- rewrites.rs lines 237-265: checks that input and output widths of
operations are consistent; false models the Rust assertion firing. -/
def check_width_consistency (exprs : List ENodeOrVar) : Bool :=
  exprs.all (node_ok exprs)

/-- rewrites.rs line 228: an assignment maps pattern variables to width values (WidthInt, an unsigned integer, is modelled as Nat). -/
abbrev Assignment := List (PVar × Nat)

/-- A substitution binds every pattern variable to an e-class id (owned by
the external graph service; egg's Subst indexed at a bound variable). -/
abbrev Subst := PVar → Nat

/-- rewrites.rs lines 98-108: a rewrite rule with its most general lhs
pattern, the rhs pattern with all widths derived from the lhs, the
variables used by the condition, and the optional condition. -/
structure ArithRewrite where
  name : String
  lhs : PTree
  rhs_derived : PTree
  cond_vars : List PVar
  cond : Option (List Nat → Bool)

/-- Collects a list of optional values; none as soon as one element is none
(the embedding of a Rust iterator collect whose closure unwraps/expects). -/
def collectOption {α β : Type} (f : α → Option β) : List α → Option (List β)
  | [] => some []
  | x :: xs =>
    match f x, collectOption f xs with
    | some y, some ys => some (y :: ys)
    | _, _ => none

/-- rewrites.rs lines 174-186: evaluate the rule's condition on an
assignment, looking each condition variable up by name; the source unwraps
the lookup, so a missing variable panics (none here); a rule without a
condition is unconditionally true. -/
def eval_condition (r : ArithRewrite) (a : Assignment) : Option Bool :=
  match r.cond with
  | some c =>
    (collectOption (fun v => (a.find? (fun p => p.1 == v)).map Prod.snd)
        r.cond_vars).map c
  | none => some true

/-- The condition of merge-left-shift (rewrites.rs line 52), over the
values of cond_vars ?wo, ?wab in that order: wab >= wo. -/
def mls_cond (w : List Nat) : Bool := decide (w.getD 1 0 ≥ w.getD 0 0)

/-- The condition of unmerge-left-shift (rewrites.rs line 62), over the
values of cond_vars ?wbc, ?wb, ?wc in that order:
wbc >= max(wb, wc) + 1. -/
def umls_cond (w : List Nat) : Bool :=
  decide (w.getD 0 0 ≥ max (w.getD 1 0) (w.getD 2 0) + 1)

/-- The condition of mult-to-add (rewrites.rs line 69), over the values of
cond_vars ?wb, ?sb, ?wo in that order:
(sb == 0 and wb > 1) or (sb == 1 and wb > 2) or wo <= wb. -/
def mta_cond (w : List Nat) : Bool :=
  (w.getD 1 0 == 0 && decide (w.getD 0 0 > 1)) ||
    (w.getD 1 0 == 1 && decide (w.getD 0 0 > 2)) ||
    decide (w.getD 2 0 ≤ w.getD 0 0)

/-- The condition of left-shift-mult (rewrites.rs line 79), over the values
of cond_vars ?wab, ?wa, ?wb, ?wo, ?wc in that order:
mul_no_ov(wab, wa, wb) and lsh_no_ov(wo, wab, wc). -/
def lsm_cond (w : List Nat) : Bool :=
  mul_no_ov (w.getD 0 0) (w.getD 1 0) (w.getD 2 0) &&
    lsh_no_ov (w.getD 3 0) (w.getD 0 0) (w.getD 4 0)

/-- rewrites.rs line 41: (+ ?wo ?wa ?sa ?a ?wb ?sb ?b). -/
def commute_add_lhs : PTree :=
  .bin .add (.pvar .wo) (.pvar .wa) (.pvar .sa) (.pvar .a)
    (.pvar .wb) (.pvar .sb) (.pvar .b)

/-- rewrites.rs line 41: (+ ?wo ?wb ?sb ?b ?wa ?sa ?a). -/
def commute_add_rhs : PTree :=
  .bin .add (.pvar .wo) (.pvar .wb) (.pvar .sb) (.pvar .b)
    (.pvar .wa) (.pvar .sa) (.pvar .a)

/-- rewrites.rs line 43: (* ?wo ?wa ?sa ?a ?wb ?sb ?b). -/
def commute_mul_lhs : PTree :=
  .bin .mul (.pvar .wo) (.pvar .wa) (.pvar .sa) (.pvar .a)
    (.pvar .wb) (.pvar .sb) (.pvar .b)

/-- rewrites.rs line 43: (* ?wo ?wb ?sb ?b ?wa ?sa ?a). -/
def commute_mul_rhs : PTree :=
  .bin .mul (.pvar .wo) (.pvar .wb) (.pvar .sb) (.pvar .b)
    (.pvar .wa) (.pvar .sa) (.pvar .a)

/-- rewrites.rs line 49:
(<< ?wo ?wab ?sa (<< ?wab ?wa ?sa ?a ?wb unsign ?b) ?wc unsign ?c). -/
def merge_left_shift_lhs : PTree :=
  .bin .shl (.pvar .wo) (.pvar .wab) (.pvar .sa)
    (.bin .shl (.pvar .wab) (.pvar .wa) (.pvar .sa) (.pvar .a)
      (.pvar .wb) .unsign (.pvar .b))
    (.pvar .wc) .unsign (.pvar .c)

/-- rewrites.rs line 50: (<< ?wo ?wa ?sa ?a (max+1 ?wb ?wc) unsign
(+ (max+1 ?wb ?wc) ?wb unsign ?b ?wc unsign ?c)). -/
def merge_left_shift_rhs : PTree :=
  .bin .shl (.pvar .wo) (.pvar .wa) (.pvar .sa) (.pvar .a)
    (.wop .maxPlus1 (.pvar .wb) (.pvar .wc)) .unsign
    (.bin .add (.wop .maxPlus1 (.pvar .wb) (.pvar .wc))
      (.pvar .wb) .unsign (.pvar .b) (.pvar .wc) .unsign (.pvar .c))

/-- rewrites.rs line 58:
(<< ?wo ?wa ?sa ?a ?wbc unsign (+ ?wbc ?wb unsign ?b ?wc unsign ?c)). -/
def unmerge_left_shift_lhs : PTree :=
  .bin .shl (.pvar .wo) (.pvar .wa) (.pvar .sa) (.pvar .a)
    (.pvar .wbc) .unsign
    (.bin .add (.pvar .wbc) (.pvar .wb) .unsign (.pvar .b)
      (.pvar .wc) .unsign (.pvar .c))

/-- rewrites.rs line 60: (<< ?wo (wlsh ?wa ?wb) ?sa
(<< (wlsh ?wa ?wb) ?wa ?sa ?a ?wb unsign ?b) ?wc unsign ?c). -/
def unmerge_left_shift_rhs : PTree :=
  .bin .shl (.pvar .wo) (.wop .wlsh (.pvar .wa) (.pvar .wb)) (.pvar .sa)
    (.bin .shl (.wop .wlsh (.pvar .wa) (.pvar .wb)) (.pvar .wa) (.pvar .sa)
      (.pvar .a) (.pvar .wb) .unsign (.pvar .b))
    (.pvar .wc) .unsign (.pvar .c)

/-- rewrites.rs line 65: (* ?wo ?wa ?sa ?a ?wb ?sb 2). -/
def mult_to_add_lhs : PTree :=
  .bin .mul (.pvar .wo) (.pvar .wa) (.pvar .sa) (.pvar .a)
    (.pvar .wb) (.pvar .sb) (.num 2)

/-- rewrites.rs line 66: (+ ?wo ?wa ?sa ?a ?wa ?sa ?a). -/
def mult_to_add_rhs : PTree :=
  .bin .add (.pvar .wo) (.pvar .wa) (.pvar .sa) (.pvar .a)
    (.pvar .wa) (.pvar .sa) (.pvar .a)

/-- rewrites.rs line 73:
(<< ?wo ?wab unsign (* ?wab ?wa unsign ?a ?wb unsign ?b) ?wc unsign ?c). -/
def left_shift_mult_lhs : PTree :=
  .bin .shl (.pvar .wo) (.pvar .wab) .unsign
    (.bin .mul (.pvar .wab) (.pvar .wa) .unsign (.pvar .a)
      (.pvar .wb) .unsign (.pvar .b))
    (.pvar .wc) .unsign (.pvar .c)

/-- rewrites.rs line 75: (* ?wo (wlsh ?wa ?wc) unsign
(<< (wlsh ?wa ?wc) ?wa unsign ?a ?wc unsign ?c) ?wb unsign ?b). -/
def left_shift_mult_rhs : PTree :=
  .bin .mul (.pvar .wo) (.wop .wlsh (.pvar .wa) (.pvar .wc)) .unsign
    (.bin .shl (.wop .wlsh (.pvar .wa) (.pvar .wc)) (.pvar .wa) .unsign
      (.pvar .a) (.pvar .wc) .unsign (.pvar .c))
    (.pvar .wb) .unsign (.pvar .b)

/-- rewrites.rs line 41. -/
def commute_add : ArithRewrite :=
  ⟨"commute-add", commute_add_lhs, commute_add_rhs, [], none⟩

/-- rewrites.rs line 43. -/
def commute_mul : ArithRewrite :=
  ⟨"commute-mul", commute_mul_lhs, commute_mul_rhs, [], none⟩

/-- rewrites.rs lines 45-52. -/
def merge_left_shift : ArithRewrite :=
  ⟨"merge-left-shift", merge_left_shift_lhs, merge_left_shift_rhs,
    [.wo, .wab], some mls_cond⟩

/-- rewrites.rs lines 54-62. -/
def unmerge_left_shift : ArithRewrite :=
  ⟨"unmerge-left-shift", unmerge_left_shift_lhs, unmerge_left_shift_rhs,
    [.wbc, .wb, .wc], some umls_cond⟩

/-- rewrites.rs lines 64-69. -/
def mult_to_add : ArithRewrite :=
  ⟨"mult-to-add", mult_to_add_lhs, mult_to_add_rhs,
    [.wb, .sb, .wo], some mta_cond⟩

/-- rewrites.rs lines 71-79. -/
def left_shift_mult : ArithRewrite :=
  ⟨"left-shift-mult", left_shift_mult_lhs, left_shift_mult_rhs,
    [.wab, .wa, .wb, .wo, .wc], some lsm_cond⟩

/-- rewrites.rs lines 38-81: the catalog of six rules. -/
def create_rewrites : List ArithRewrite :=
  [commute_add, commute_mul, merge_left_shift, unmerge_left_shift,
    mult_to_add, left_shift_mult]

/-- The external equality-saturation graph, treated (as the spec's design
notes direct) as a black box behind exactly two contracts: pattern search
with substitutions, and per-class constant resolution. classes and consts
are its observable state; find_lhs_matches must leave both unchanged. -/
structure EGraph where
  searchFn : List ENodeOrVar → List (Nat × List Subst)
  constFn : Nat → Option Nat

/-- Modelled from the spec: get_const_width_or_sign (the constant-folding
lookup, outside the given source files) resolves an e-class to a known
constant width or sign (signs encoded as 0/1) when the analysis knows one. -/
def get_const_width_or_sign (g : EGraph) (id : Nat) : Option Nat :=
  g.constFn id

/-- rewrites.rs lines 221-226: the variables appearing in a pattern, in
node order (each once, since egg compacts pattern asts). -/
def vars_in_pattern (pattern : List ENodeOrVar) : List PVar :=
  pattern.filterMap fun e =>
    match e with
    | .evar v => some v
    | .enode _ _ => none

/-- rewrites.rs lines 211-219: resolve every pattern variable's bound
e-class through the constant-folding lookup, keeping only the variables
for which a constant is known. -/
def substitution_to_assignment (g : EGraph) (s : Subst)
    (pattern : List ENodeOrVar) : Assignment :=
  (vars_in_pattern pattern).filterMap fun v =>
    (get_const_width_or_sign g (s v)).map fun w => (v, w)

/-- rewrites.rs lines 230-235: a match found by find_lhs_matches. -/
structure ArithMatch where
  eclass : Nat
  assign : Assignment
  cond_res : Bool
deriving DecidableEq

/-- The per-substitution body of find_lhs_matches (rewrites.rs lines
197-205): extract the assignment, evaluate the condition and build the
match record; none models the panic inside eval_condition. -/
def match_of_pair (r : ArithRewrite) (g : EGraph) (pat : List ENodeOrVar)
    (p : Nat × Subst) : Option ArithMatch :=
  let assign := substitution_to_assignment g p.2 pat
  (eval_condition r assign).map fun c =>
    { eclass := p.1, assign := assign, cond_res := c }

/-- rewrites.rs lines 191-208: search the graph for every match of the lhs
and report each with its assignment and condition result; none models the
panic inside eval_condition reaching the caller. -/
def find_lhs_matches (r : ArithRewrite) (g : EGraph) :
    Option (List ArithMatch) :=
  collectOption (match_of_pair r g (patternNodes r.lhs))
    ((g.searchFn (patternNodes r.lhs)).flatMap fun m => m.2.map fun s => (m.1, s))

/-- The guard closure built by to_egg (rewrites.rs lines 149-158): resolve
every condition variable through the constant-folding lookup and apply the
condition; the source expects each lookup to succeed, so an unresolvable
variable panics (none here) instead of failing the match. -/
def to_egg_condition (vars : List PVar) (c : List Nat → Bool)
    (g : EGraph) (s : Subst) : Option Bool :=
  (collectOption (fun v => get_const_width_or_sign g (s v)) vars).map c

/-- An exported egg rewrite record: unconditional, or wrapping the applier
in a ConditionalApplier with the given guard. -/
inductive EggRewrite where
  | unconditional (name : String) (searcher applier : PTree)
  | conditional (name : String) (searcher applier : PTree)
      (guard : EGraph → Subst → Option Bool)

/-- rewrites.rs lines 145-172: export a rule to the egg format. -/
def to_egg (r : ArithRewrite) : List EggRewrite :=
  match r.cond with
  | some c =>
    [.conditional r.name r.lhs r.rhs_derived (to_egg_condition r.cond_vars c)]
  | none => [.unconditional r.name r.lhs r.rhs_derived]

/-- State-threaded rendering of substitution_to_assignment: the graph is
passed through every constant-folding lookup, so any mutation by the
service would propagate; the lookups are reads, which the frame theorem
below makes explicit. -/
def substitution_to_assignment_st (s : Subst) (pattern : List ENodeOrVar)
    (g : EGraph) : Assignment × EGraph :=
  (vars_in_pattern pattern).foldl
    (fun acc v =>
      match get_const_width_or_sign acc.2 (s v) with
      | some w => (acc.1 ++ [(v, w)], acc.2)
      | none => (acc.1, acc.2))
    ([], g)

/-- One step of the state-threaded find_lhs_matches loop: the graph
returned by the per-match assignment extraction is fed onward, and the
accumulated match list grows (or collapses to none on a panic). -/
def match_step (r : ArithRewrite) (pat : List ENodeOrVar)
    (acc : Option (List ArithMatch) × EGraph) (p : Nat × Subst) :
    Option (List ArithMatch) × EGraph :=
  let ag := substitution_to_assignment_st p.2 pat acc.2
  match acc.1, eval_condition r ag.1 with
  | some ms, some c =>
    (some (ms ++ [{ eclass := p.1, assign := ag.1, cond_res := c }]), ag.2)
  | _, _ => (none, ag.2)

/-- State-threaded rendering of find_lhs_matches: the graph returned by
each per-match assignment extraction is fed to the next, and the final
graph is returned alongside the matches. -/
def find_lhs_matches_st (r : ArithRewrite) (g0 : EGraph) :
    Option (List ArithMatch) × EGraph :=
  ((g0.searchFn (patternNodes r.lhs)).flatMap fun m =>
      m.2.map fun s => (m.1, s)).foldl
    (match_step r (patternNodes r.lhs)) (some [], g0)

/-- A graph whose search offers one match (any substitution will do) and
whose constant-folding analysis knows nothing: every lookup fails. -/
def egAllNone : EGraph :=
  ⟨fun _ => [(0, [fun _ => 0])], fun _ => none⟩

/-- The first of the mult-to-add side condition's three cases, as the spec
states it: the constant multiplier is unsigned (sign value 0) and its
declared width exceeds 1. -/
def mta_case_unsigned (wb sb : Nat) : Prop := sb = 0 ∧ wb > 1

/-- The second of the mult-to-add side condition's three cases, as the spec
states it: the constant multiplier is signed (sign value 1) and its
declared width exceeds 2. -/
def mta_case_signed (wb sb : Nat) : Prop := sb = 1 ∧ wb > 2

/-- The third of the mult-to-add side condition's three cases, as the spec
states it: the output is no wider than the constant operand. -/
def mta_case_narrow (wb wo : Nat) : Prop := wo ≤ wb

/-- C5: the three width arithmetic predicates are exactly the stated
formulas, for all width values: add_no_ov(w, a, b) iff w >= max(a, b) + 1,
mul_no_ov(w, a, b) iff w >= a + b, and lsh_no_ov(w, v, s) iff
w >= v + (2 ^ s - 1). -/
theorem width_predicates_exact (w a b : Nat) :
    (add_no_ov w a b = true ↔ w ≥ max a b + 1) ∧
    (mul_no_ov w a b = true ↔ w ≥ a + b) ∧
    (lsh_no_ov w a b = true ↔ w ≥ a + (2 ^ b - 1)) := by
  simp [add_no_ov, mul_no_ov, lsh_no_ov, eval_width_max_plus_1,
    eval_width_left_shift]

/-- C8: the shift rules' guards are exactly the stated inequalities:
merge-left-shift's condition (on cond_vars ?wo, ?wab) holds iff the
intermediate shift's declared output width wab is at least the final
output width wo, and unmerge-left-shift's condition (on cond_vars ?wbc,
?wb, ?wc) holds iff the combined shift-amount width wbc is at least
max(wb, wc) + 1. -/
theorem shift_rule_guards_exact (wo wab wbc wb wc : Nat) :
    (mls_cond [wo, wab] = true ↔ wab ≥ wo) ∧
    (umls_cond [wbc, wb, wc] = true ↔ wbc ≥ max wb wc + 1) := by
  simp [mls_cond, umls_cond]

/-- C2: the left-shift-mult side condition (on cond_vars ?wab, ?wa, ?wb,
?wo, ?wc) holds exactly when both evaluation orders are overflow-free: it
requires mul_no_ov and lsh_no_ov for the left-hand side (wab >= wa + wb
and wo >= wab + (2 ^ wc - 1)) and these imply the overflow-freedom of the
reassociated right-hand side as well (wo >= widthOfLeftShift(wa, wc) + wb,
i.e. mul_no_ov wo (eval_width_left_shift wa wc) wb). -/
theorem left_shift_mult_cond_overflow_free (wab wa wb wo wc : Nat) :
    lsm_cond [wab, wa, wb, wo, wc] = true ↔
      (mul_no_ov wab wa wb = true ∧ lsh_no_ov wo wab wc = true ∧
        mul_no_ov wo (eval_width_left_shift wa wc) wb = true) := by
  simp only [lsm_cond, mul_no_ov, lsh_no_ov, eval_width_left_shift,
    List.getD_cons_zero, List.getD_cons_succ, Bool.and_eq_true,
    decide_eq_true_eq, ge_iff_le]
  constructor
  · rintro ⟨h1, h2⟩
    refine ⟨h1, h2, ?_⟩
    generalize 2 ^ wc = k at h2 ⊢
    omega
  · rintro ⟨h1, h2, h3⟩
    exact ⟨h1, h2⟩

/-- C4 counterexample: at wb = 2, sb = 0 (unsigned), wo = 2 the mult-to-add
condition is true while both the first (unsigned, width > 1) and the third
(output no wider than the operand) of the claim's three sufficient
conditions hold at once, so the three conditions are not disjoint. -/
theorem mult_to_add_cases_overlap_cex :
    mta_cond [2, 0, 2] = true ∧ mta_case_unsigned 2 0 ∧ mta_case_narrow 2 2 := by
  refine ⟨by decide, ⟨rfl, by decide⟩, ?_⟩
  show (2 : Nat) ≤ 2
  decide

/-- C4 as amended: the mult-to-add side condition (on cond_vars ?wb, ?sb,
?wo) is exactly the three-way disjunction of the stated sufficient
conditions, not a simplification of it; the first two disjuncts exclude
each other but the third overlaps them, so the disjuncts are not pairwise
disjoint. -/
theorem mult_to_add_cond_exact (wb sb wo : Nat) :
    mta_cond [wb, sb, wo] = true ↔
      (mta_case_unsigned wb sb ∨ mta_case_signed wb sb ∨
        mta_case_narrow wb wo) := by
  simp [mta_cond, mta_case_unsigned, mta_case_signed, mta_case_narrow,
    Bool.or_eq_true, Bool.and_eq_true, decide_eq_true_eq, beq_iff_eq,
    or_assoc]

/-- C7: building the shipped rule catalog succeeds: the width-consistency
checker accepts the left-hand side and the derived right-hand side of
every one of the six catalog rules, so no construction-time assertion
fires and create_rewrites never aborts. -/
theorem create_rewrites_accepted :
    create_rewrites.all
      (fun r => check_width_consistency (patternNodes r.lhs) &&
        check_width_consistency (patternNodes r.rhs_derived)) = true := by
  decide

/-- One slot comparison passes exactly when the operand either declares no
output width (variable, constant or helper node) or declares the same
width id as the parent's operand-width slot. -/
theorem slot_ok_iff (exprs : List ENodeOrVar) (wi oi : Nat) :
    slot_ok exprs wi oi = true ↔
      ∀ w, get_output_width_id (exprs.getD oi pad_node) = some w → wi = w := by
  unfold slot_ok
  cases h : get_output_width_id (exprs.getD oi pad_node) with
  | none => simp
  | some w => simp [beq_iff_eq]

/-- C6: the width-consistency checker accepts a pattern exactly when, for
every binary arithmetic node in it, whenever an operand slot points at a
node that is itself a binary arithmetic node, the parent's declared
operand-width id equals that operand's declared output-width id; operands
that are variables, constants or width-helper nodes impose no constraint,
and any violating node makes the check fail (the Rust assertion fires)
rather than be silently corrected. -/
theorem check_width_consistency_iff (exprs : List ENodeOrVar) :
    check_width_consistency exprs = true ↔
      ∀ e ∈ exprs, ∀ op ch, e = ENodeOrVar.enode op ch →
        is_bin_op op = true →
        (∀ w, get_output_width_id (exprs.getD (ch.getD 3 0) pad_node) =
            some w → ch.getD 1 0 = w) ∧
        (∀ w, get_output_width_id (exprs.getD (ch.getD 6 0) pad_node) =
            some w → ch.getD 4 0 = w) := by
  unfold check_width_consistency
  rw [List.all_eq_true]
  constructor
  · intro h e he op ch hech hbin
    have h2 := h e he
    subst hech
    simp only [node_ok, hbin, if_true, Bool.and_eq_true, slot_ok_iff] at h2
    exact h2
  · intro h e he
    cases e with
    | evar v => rfl
    | enode op ch =>
      by_cases hb : is_bin_op op = true
      · have h2 := h _ he op ch rfl hb
        simp only [node_ok, hb, if_true, Bool.and_eq_true, slot_ok_iff]
        exact h2
      · simp only [node_ok, Bool.not_eq_true] at hb ⊢
        simp [hb]

/-- Collecting fails as soon as one element fails: the embedding of a Rust
collect over a closure that panics on that element. -/
theorem collectOption_eq_none {α β : Type} {f : α → Option β} {l : List α}
    {x : α} (hx : x ∈ l) (hfx : f x = none) : collectOption f l = none := by
  induction l with
  | nil => cases hx
  | cons y ys ih =>
    rcases List.mem_cons.mp hx with hy | hy
    · subst hy
      cases hrest : collectOption f ys <;> simp [collectOption, hfx, hrest]
    · cases hfy : f y <;> simp [collectOption, hfy, ih hy]

/-- Collecting succeeds when every element succeeds. -/
theorem collectOption_isSome {α β : Type} {f : α → Option β} {l : List α}
    (h : ∀ x ∈ l, (f x).isSome = true) :
    ∃ ys, collectOption f l = some ys := by
  induction l with
  | nil => exact ⟨[], rfl⟩
  | cons y ys ih =>
    obtain ⟨v, hv⟩ := Option.isSome_iff_exists.mp
      (h y (List.mem_cons_self y ys))
    obtain ⟨zs, hzs⟩ := ih fun x hx => h x (List.mem_cons_of_mem y hx)
    exact ⟨v :: zs, by simp [collectOption, hv, hzs]⟩

/-- Collecting only looks at the elements of the list. -/
theorem collectOption_congr {α β : Type} {f g2 : α → Option β}
    {l : List α} (h : ∀ x ∈ l, f x = g2 x) :
    collectOption f l = collectOption g2 l := by
  induction l with
  | nil => rfl
  | cons y ys ih =>
    simp only [collectOption, h y (List.mem_cons_self y ys),
      ih fun x hx => h x (List.mem_cons_of_mem y hx)]

/-- C1 as amended: when a rule has a condition and a match's extracted
assignment lacks a value for one of the rule's condition variables, the
source's unwrap in eval_condition panics, so find_lhs_matches aborts
(none) instead of reporting the match with conditionResult false. -/
theorem find_lhs_matches_missing_var_fails (r : ArithRewrite)
    (c : List Nat → Bool) (hc : r.cond = some c)
    (v : PVar) (hv : v ∈ r.cond_vars) (g : EGraph) (ec : Nat) (s : Subst)
    (hmem : ∃ m ∈ g.searchFn (patternNodes r.lhs), m.1 = ec ∧ s ∈ m.2)
    (hmiss : (substitution_to_assignment g s (patternNodes r.lhs)).find?
        (fun p => p.1 == v) = none) :
    find_lhs_matches r g = none := by
  obtain ⟨m, hm, hec, hs⟩ := hmem
  have hpair : (ec, s) ∈ (g.searchFn (patternNodes r.lhs)).flatMap
      (fun m => m.2.map fun s2 => (m.1, s2)) :=
    List.mem_flatMap.mpr ⟨m, hm, List.mem_map.mpr ⟨s, hs, by rw [hec]⟩⟩
  have heval : eval_condition r
      (substitution_to_assignment g s (patternNodes r.lhs)) = none := by
    unfold eval_condition
    rw [hc]
    rw [collectOption_eq_none hv (by rw [hmiss]; rfl)]
    rfl
  unfold find_lhs_matches
  exact collectOption_eq_none hpair (by simp only [match_of_pair, heval]; rfl)

/-- C1 counterexample: on a graph whose constant-folding lookup knows no
constants, searching for merge-left-shift (whose condition needs ?wo and
?wab) does not complete with a conditionResult = false match, as the claim
states: condition evaluation hits the unwrap panic (none), and so does the
whole find_lhs_matches query. -/
theorem find_lhs_matches_unresolved_cex :
    find_lhs_matches merge_left_shift egAllNone = none ∧
      eval_condition merge_left_shift [] = none := ⟨rfl, rfl⟩

/-- Witness: the amended C1 theorem applied to merge-left-shift on the
all-unresolved graph. -/
theorem find_lhs_matches_missing_var_fails_witness :
    merge_left_shift.cond = some mls_cond ∧
      PVar.wo ∈ merge_left_shift.cond_vars ∧
      (∃ m ∈ egAllNone.searchFn (patternNodes merge_left_shift.lhs),
        m.1 = 0 ∧ ((fun _ => 0) : Subst) ∈ m.2) ∧
      (substitution_to_assignment egAllNone (fun _ => 0)
          (patternNodes merge_left_shift.lhs)).find?
        (fun p => p.1 == PVar.wo) = none ∧
      find_lhs_matches merge_left_shift egAllNone = none :=
  ⟨rfl, by decide,
    ⟨(0, [fun _ => 0]), List.mem_singleton.mpr rfl, rfl,
      List.mem_singleton.mpr rfl⟩,
    rfl,
    find_lhs_matches_missing_var_fails merge_left_shift mls_cond rfl
      PVar.wo (by decide) egAllNone 0 (fun _ => 0)
      ⟨(0, [fun _ => 0]), List.mem_singleton.mpr rfl, rfl,
        List.mem_singleton.mpr rfl⟩
      rfl⟩

/-- C3 as amended: for a rule with a condition, to_egg exports exactly one
rewrite, wrapping rhs_derived in a conditional applier whose guard
resolves every condition variable through the constant-folding lookup and
calls the condition on the resolved values; if any variable is
unresolvable the guard panics (the source's expect, none here) rather
than failing the match with false. -/
theorem to_egg_conditional_guard (r : ArithRewrite) (c : List Nat → Bool)
    (hc : r.cond = some c) :
    to_egg r = [EggRewrite.conditional r.name r.lhs r.rhs_derived
        (to_egg_condition r.cond_vars c)] ∧
      (∀ g : EGraph, ∀ s : Subst, ∀ v ∈ r.cond_vars,
        get_const_width_or_sign g (s v) = none →
          to_egg_condition r.cond_vars c g s = none) ∧
      (∀ g : EGraph, ∀ s : Subst,
        (∀ v ∈ r.cond_vars, (get_const_width_or_sign g (s v)).isSome = true) →
          ∃ vals, collectOption (fun v => get_const_width_or_sign g (s v))
              r.cond_vars = some vals ∧
            to_egg_condition r.cond_vars c g s = some (c vals)) := by
  refine ⟨by simp [to_egg, hc], ?_, ?_⟩
  · intro g s v hv hnone
    unfold to_egg_condition
    rw [collectOption_eq_none hv hnone]
    rfl
  · intro g s hall
    obtain ⟨vals, hvals⟩ := collectOption_isSome hall
    exact ⟨vals, hvals, by unfold to_egg_condition; rw [hvals]; rfl⟩

/-- C3 counterexample: on the graph whose lookup resolves nothing, the
exported guard of merge-left-shift returns none (panic), not false as the
claim states. -/
theorem to_egg_guard_unresolved_cex :
    to_egg_condition merge_left_shift.cond_vars mls_cond egAllNone
        (fun _ => 0) = none ∧
      to_egg_condition merge_left_shift.cond_vars mls_cond egAllNone
        (fun _ => 0) ≠ some false :=
  ⟨rfl, by decide⟩

/-- Witness: the amended C3 theorem applied to merge-left-shift. -/
theorem to_egg_conditional_guard_witness :
    merge_left_shift.cond = some mls_cond ∧
      (to_egg merge_left_shift = [EggRewrite.conditional
          merge_left_shift.name merge_left_shift.lhs
          merge_left_shift.rhs_derived
          (to_egg_condition merge_left_shift.cond_vars mls_cond)] ∧
        (∀ g : EGraph, ∀ s : Subst, ∀ v ∈ merge_left_shift.cond_vars,
          get_const_width_or_sign g (s v) = none →
            to_egg_condition merge_left_shift.cond_vars mls_cond g s =
              none) ∧
        (∀ g : EGraph, ∀ s : Subst,
          (∀ v ∈ merge_left_shift.cond_vars,
            (get_const_width_or_sign g (s v)).isSome = true) →
            ∃ vals, collectOption
                (fun v => get_const_width_or_sign g (s v))
                merge_left_shift.cond_vars = some vals ∧
              to_egg_condition merge_left_shift.cond_vars mls_cond g s =
                some (mls_cond vals))) :=
  ⟨rfl, to_egg_conditional_guard merge_left_shift mls_cond rfl⟩

/-- Unfolding lemma for collectOption on a cons cell. -/
theorem collectOption_cons {α β : Type} (f : α → Option β) (x : α)
    (xs : List α) :
    collectOption f (x :: xs) =
      match f x, collectOption f xs with
      | some y, some ys => some (y :: ys)
      | _, _ => none := rfl

/-- The state-threaded assignment extraction returns the graph unchanged
and computes the same assignment as the pure reading. -/
theorem substitution_to_assignment_st_aux (g : EGraph) (s : Subst)
    (l : List PVar) :
    ∀ acc : Assignment,
      l.foldl (fun acc2 v =>
          match get_const_width_or_sign acc2.2 (s v) with
          | some w => (acc2.1 ++ [(v, w)], acc2.2)
          | none => (acc2.1, acc2.2)) (acc, g) =
        (acc ++ l.filterMap (fun v =>
          (get_const_width_or_sign g (s v)).map fun w => (v, w)), g) := by
  induction l with
  | nil => intro acc; simp
  | cons v t ih =>
    intro acc
    cases hw : get_const_width_or_sign g (s v) with
    | some w => simp [hw, ih, List.append_assoc]
    | none => simp [hw, ih]

/-- substitution_to_assignment_st agrees with substitution_to_assignment
and leaves the graph as it was. -/
theorem substitution_to_assignment_st_spec (s : Subst)
    (pat : List ENodeOrVar) (g : EGraph) :
    substitution_to_assignment_st s pat g =
      (substitution_to_assignment g s pat, g) := by
  have h := substitution_to_assignment_st_aux g s (vars_in_pattern pat) []
  simpa [substitution_to_assignment_st, substitution_to_assignment] using h

/-- A panicked accumulator stays panicked and the graph stays unchanged. -/
theorem match_step_none (r : ArithRewrite) (pat : List ENodeOrVar)
    (g : EGraph) (p : Nat × Subst) :
    match_step r pat (none, g) p = (none, g) := by
  simp [match_step, substitution_to_assignment_st_spec]

/-- One live step of the loop in terms of the pure per-pair function. -/
theorem match_step_some (r : ArithRewrite) (pat : List ENodeOrVar)
    (g : EGraph) (ms : List ArithMatch) (p : Nat × Subst) :
    match_step r pat (some ms, g) p =
      match eval_condition r (substitution_to_assignment g p.2 pat) with
      | some c =>
        (some (ms ++ [⟨p.1, substitution_to_assignment g p.2 pat, c⟩]), g)
      | none => (none, g) := by
  cases he : eval_condition r (substitution_to_assignment g p.2 pat) <;>
    simp [match_step, substitution_to_assignment_st_spec, he]

/-- The loop never leaves the panicked state. -/
theorem foldl_match_step_none (r : ArithRewrite) (pat : List ENodeOrVar)
    (g : EGraph) (l : List (Nat × Subst)) :
    l.foldl (match_step r pat) (none, g) = (none, g) := by
  induction l with
  | nil => rfl
  | cons p t ih => rw [List.foldl_cons, match_step_none]; exact ih

/-- The loop computes the collected matches and returns the graph it was
given. -/
theorem foldl_match_step_some (r : ArithRewrite) (pat : List ENodeOrVar)
    (g : EGraph) (l : List (Nat × Subst)) :
    ∀ ms : List ArithMatch,
      l.foldl (match_step r pat) (some ms, g) =
        ((collectOption (match_of_pair r g pat) l).map fun l2 => ms ++ l2,
          g) := by
  induction l with
  | nil => intro ms; simp [collectOption]
  | cons p t ih =>
    intro ms
    rw [List.foldl_cons]
    cases he : eval_condition r (substitution_to_assignment g p.2 pat) with
    | some c =>
      rw [match_step_some]
      simp only [he]
      rw [ih]
      rw [collectOption_cons]
      have hm : match_of_pair r g pat p =
          some ⟨p.1, substitution_to_assignment g p.2 pat, c⟩ := by
        simp [match_of_pair, he]
      rw [hm]
      cases hrest : collectOption (match_of_pair r g pat) t with
      | some l2 => simp
      | none => simp
    | none =>
      rw [match_step_some]
      simp only [he]
      rw [foldl_match_step_none]
      rw [collectOption_cons]
      have hm : match_of_pair r g pat p = none := by
        simp [match_of_pair, he]
      rw [hm]
      simp

/-- C9: find_lhs_matches does not mutate the equivalence graph: the
state-threaded rendering of the query, in which the graph is passed
through the search and through every constant-folding lookup, returns
exactly the graph it was given (same equivalence classes, same
constant-folding annotations, since EGraph packages both observables) and
the same matches as the pure find_lhs_matches. -/
theorem find_lhs_matches_reads_only (r : ArithRewrite) (g : EGraph) :
    find_lhs_matches_st r g = (find_lhs_matches r g, g) := by
  unfold find_lhs_matches_st find_lhs_matches
  rw [foldl_match_step_some]
  cases collectOption (match_of_pair r g (patternNodes r.lhs))
      ((g.searchFn (patternNodes r.lhs)).flatMap fun m =>
        m.2.map fun s => (m.1, s)) <;> simp

/-- In an assignment whose variables are pairwise distinct, find? at a
variable returns exactly the unique pair carrying it. -/
theorem assignment_find_unique (l : Assignment) (v : PVar) (x : Nat)
    (hnd : (l.map Prod.fst).Nodup) (hx : (v, x) ∈ l) :
    l.find? (fun p => p.1 == v) = some (v, x) := by
  induction l with
  | nil => cases hx
  | cons q t ih =>
    have hnd2 : q.1 ∉ t.map Prod.fst ∧ (t.map Prod.fst).Nodup := by
      rw [List.map_cons] at hnd
      exact List.nodup_cons.mp hnd
    rcases List.mem_cons.mp hx with hq | ht
    · subst hq
      rw [List.find?_cons]
      simp
    · have hv : v ∈ t.map Prod.fst := List.mem_map.mpr ⟨(v, x), ht, rfl⟩
      have hq1 : (q.1 == v) = false := by
        refine beq_eq_false_iff_ne.mpr ?_
        intro hqv
        exact hnd2.1 (hqv ▸ hv)
      rw [List.find?_cons]
      simp only [hq1]
      exact ih hnd2.2 ht

/-- C10 as amended: eval_condition looks each condition variable up by
name, so for an assignment list whose variables are pairwise distinct and
that covers every condition variable, the result is unchanged by
permuting the pairs and by adding pairs for variables not in cond_vars
(with duplicate entries for one variable the first occurrence wins, so
permutations are not harmless in general). -/
theorem eval_condition_assignment_invariant (r : ArithRewrite)
    (a b extra : Assignment)
    (hnd : (a.map Prod.fst).Nodup)
    (hperm : b.Perm (a ++ extra))
    (hextra : ∀ p ∈ extra, p.1 ∉ r.cond_vars)
    (hcover : ∀ v ∈ r.cond_vars, ∃ w, (v, w) ∈ a) :
    eval_condition r b = eval_condition r a := by
  have key : ∀ v ∈ r.cond_vars,
      b.find? (fun p => p.1 == v) = a.find? (fun p => p.1 == v) := by
    intro v hv
    obtain ⟨w, hw⟩ := hcover v hv
    have ha : a.find? (fun p => p.1 == v) = some (v, w) :=
      assignment_find_unique a v w hnd hw
    have hwb : (v, w) ∈ b := hperm.mem_iff.mpr (List.mem_append_left _ hw)
    cases hb : b.find? (fun p => p.1 == v) with
    | none =>
      exfalso
      have h2 := List.find?_eq_none.mp hb (v, w) hwb
      simp at h2
    | some q =>
      have hqp := List.find?_some hb
      have hqv : q.1 = v := by simpa using hqp
      have hqb : q ∈ b := List.mem_of_find?_eq_some hb
      have hqa : q ∈ a := by
        rcases List.mem_append.mp (hperm.mem_iff.mp hqb) with h | h
        · exact h
        · exact absurd hv (hqv ▸ hextra q h)
      have hq : q = (v, q.2) := by rw [← hqv]
      have ha2 : a.find? (fun p => p.1 == v) = some (v, q.2) :=
        assignment_find_unique a v q.2 hnd (hq ▸ hqa)
      rw [ha2]
      exact congrArg some hq
  unfold eval_condition
  cases hc : r.cond with
  | none => rfl
  | some c =>
    have hcc : collectOption
        (fun v => (b.find? (fun p => p.1 == v)).map Prod.snd) r.cond_vars =
          collectOption
        (fun v => (a.find? (fun p => p.1 == v)).map Prod.snd) r.cond_vars :=
      collectOption_congr fun v hv => by rw [key v hv]
    rw [hcc]

/-- C10 counterexample: with two conflicting entries for ?wo, the first
occurrence wins, so permuting the pairs flips merge-left-shift's condition
from true (wab = 5 >= wo = 0) to false (5 >= 9 fails), although both lists
contain a value for every condition variable. -/
theorem eval_condition_order_cex :
    eval_condition merge_left_shift
        [(PVar.wo, 0), (PVar.wo, 9), (PVar.wab, 5)] = some true ∧
      eval_condition merge_left_shift
        [(PVar.wo, 9), (PVar.wo, 0), (PVar.wab, 5)] = some false ∧
      List.Perm [(PVar.wo, 9), (PVar.wo, 0), (PVar.wab, 5)]
        [(PVar.wo, 0), (PVar.wo, 9), (PVar.wab, 5)] := by
  refine ⟨rfl, rfl, ?_⟩
  decide

/-- Witness: the amended C10 theorem applied to merge-left-shift, a
two-entry assignment, a permutation of it and one extra irrelevant
variable. -/
theorem eval_condition_assignment_invariant_witness :
    ((([(PVar.wo, 3), (PVar.wab, 5)] : Assignment).map Prod.fst).Nodup) ∧
      (([(PVar.wab, 5), (PVar.wa, 7), (PVar.wo, 3)] : Assignment).Perm
        ([(PVar.wo, 3), (PVar.wab, 5)] ++ [(PVar.wa, 7)])) ∧
      (∀ p ∈ ([(PVar.wa, 7)] : Assignment),
        p.1 ∉ merge_left_shift.cond_vars) ∧
      eval_condition merge_left_shift
          [(PVar.wab, 5), (PVar.wa, 7), (PVar.wo, 3)] =
        eval_condition merge_left_shift [(PVar.wo, 3), (PVar.wab, 5)] :=
  ⟨by decide, by decide, by decide,
    eval_condition_assignment_invariant merge_left_shift
      [(PVar.wo, 3), (PVar.wab, 5)]
      [(PVar.wab, 5), (PVar.wa, 7), (PVar.wo, 3)] [(PVar.wa, 7)]
      (by decide) (by decide) (by decide)
      (by
        intro v hv
        have hv2 : v ∈ [PVar.wo, PVar.wab] := hv
        rcases List.mem_cons.mp hv2 with h | h
        · exact ⟨3, by rw [h]; decide⟩
        · have h2 : v = PVar.wab := by simpa using h
          exact ⟨5, by rw [h2]; decide⟩)⟩
